import Mathlib

/-!
Verification of the HOR (Higher-Order Repeat) detection-and-scoring engine of the
Oryza-Genus-Centromere-Project repository.

The development shallowly embeds the two core scripts:
* `09.HOR/01.satellite/3.Batch_build_large_blocksize.py` — the BlockConsolidator
  (`process_file`), a two-state segmentation pass over shift==1 HOR pair records;
* `09.HOR/02.windows/01.HOR_detection_and_scoring.py` — `read_fa_order`,
  `pairs_identity_max`, `build_similarity_from_pairs`, `find_hors`, `compute_scores`.

Machine floats of the source are modelled as rationals (`ℚ`); only order comparisons
on them matter to the verified properties.  Python lists indexed in bounds are
modelled as Lean lists; file/CSV plumbing is modelled by passing the already-parsed
rows, which is the granularity at which the verified functions consume them.
-/

namespace HOR

/-! ## BlockConsolidator (`process_file` of 3.Batch_build_large_blocksize.py)

One parsed input row of the shift==1 stream: `block_size_i`, `A_first`
(first integer of the `A_pos` column) and `B_last` (last integer of `B_pos`).
Rows whose parse failed are dropped by `dropna` before the loop, so every record
reaching the state machine carries all three numbers. -/
structure ConsRec where
  bs : Nat
  aFirst : Nat
  bLast : Nat
  deriving Repr, DecidableEq

/-- The in-segment state of `process_file`.  In the source the five variables are
initialised to `None`/`False` and are all assigned whenever a segment opens
(`in_block = True`), so while `in_block` holds every field carries a value; the
embedding therefore stores them in an `Option`-wrapped record whose presence is
exactly `in_block`. -/
structure SegState where
  seenNon3 : Bool
  startA : Nat
  lastBOfStart : Nat
  maxBs : Nat
  endBAtMax : Nat
  deriving Repr, DecidableEq

/-- One emitted segment row: `mono_start`, `mono_end`,
`mono_count = mono_end - mono_start + 1` (Python int arithmetic, hence `Int`),
`blocksize_max`. -/
structure Segment where
  monoStart : Nat
  monoEnd : Nat
  monoCount : Int
  blocksizeMax : Nat
  deriving Repr, DecidableEq

/-- Opening a segment at a `block_size == 3` record (`in_block = True`,
`seen_non3 = False`, `start_a = a`, `last_b_of_start = b`, `max_bs = 3`,
`end_b_at_max = b`). -/
def openSeg (a b : Nat) : SegState :=
  { seenNon3 := false, startA := a, lastBOfStart := b, maxBs := 3, endBAtMax := b }

/-- Closing a segment upon a `block_size == 3` record after `seen_non3`:
`final_end = end_b_at_max if end_b_at_max is not None else last_b_of_start`;
`end_b_at_max` is always set while in a segment, so it is the value used. -/
def closeSeg (st : SegState) : Segment :=
  { monoStart := st.startA, monoEnd := st.endBAtMax,
    monoCount := (st.endBAtMax : Int) - (st.startA : Int) + 1,
    blocksizeMax := st.maxBs }

/-- One iteration of the `for _, r in df.iterrows()` loop of `process_file`. -/
def consStep : List Segment × Option SegState → ConsRec → List Segment × Option SegState
  | (segs, st?), r =>
    if r.bs = 3 then
      match st? with
      | none => (segs, some (openSeg r.aFirst r.bLast))
      | some st =>
        if st.seenNon3 then
          (segs ++ [closeSeg st], some (openSeg r.aFirst r.bLast))
        else
          (segs, some { st with lastBOfStart := r.bLast })
    else
      match st? with
      | none => (segs, none)
      | some st =>
        if r.bs > st.maxBs then
          (segs, some { st with seenNon3 := true, maxBs := r.bs, endBAtMax := r.bLast })
        else if r.bs = st.maxBs then
          (segs, some { st with seenNon3 := true, endBAtMax := r.bLast })
        else
          (segs, some { st with seenNon3 := true })

/-- End-of-file flush of `process_file`:
`final_end = end_b_at_max if (seen_non3 and end_b_at_max is not None) else last_b_of_start`. -/
def finalize : List Segment × Option SegState → List Segment
  | (segs, none) => segs
  | (segs, some st) =>
    let e := if st.seenNon3 then st.endBAtMax else st.lastBOfStart
    segs ++ [{ monoStart := st.startA, monoEnd := e,
               monoCount := (e : Int) - (st.startA : Int) + 1,
               blocksizeMax := st.maxBs }]

/-- The whole record loop of `process_file` on an already-parsed shift==1 stream. -/
def consolidate (recs : List ConsRec) : List Segment :=
  finalize (recs.foldl consStep ([], none))

/-- Folding further `block_size == 3` records while `seen_non3 = false` only moves
`last_b_of_start`; the accumulator, the opening point and the max-block evidence
are untouched. -/
theorem foldl_consStep_threes (rs : List ConsRec) (segs : List Segment) (st : SegState)
    (h3 : ∀ r ∈ rs, r.bs = 3) (hseen : st.seenNon3 = false) :
    ∃ st', rs.foldl consStep (segs, some st) = (segs, some st') ∧
      st'.seenNon3 = false ∧ st'.startA = st.startA ∧ st'.maxBs = st.maxBs ∧
      st'.endBAtMax = st.endBAtMax ∧
      (st'.lastBOfStart = st.lastBOfStart ∨ ∃ r ∈ rs, st'.lastBOfStart = r.bLast) := by
  induction rs generalizing st with
  | nil => exact ⟨st, rfl, hseen, rfl, rfl, rfl, Or.inl rfl⟩
  | cons r rs ih =>
    have hr : r.bs = 3 := h3 r (List.mem_cons_self _ _)
    have hstep : consStep (segs, some st) r =
        (segs, some { st with lastBOfStart := r.bLast }) := by
      simp [consStep, hr, hseen]
    rw [List.foldl_cons, hstep]
    obtain ⟨st', heq, h1, h2, h3', h4, h5⟩ :=
      ih { st with lastBOfStart := r.bLast } (fun x hx => h3 x (List.mem_cons_of_mem _ hx)) hseen
    refine ⟨st', heq, h1, h2, h3', h4, ?_⟩
    rcases h5 with h5 | ⟨x, hx, hx'⟩
    · exact Or.inr ⟨r, List.mem_cons_self _ _, h5⟩
    · exact Or.inr ⟨x, List.mem_cons_of_mem _ hx, hx'⟩

/-- Folding `block_size < 3` records while the state's `max_bs` is at least 3
(which holds in every reachable in-segment state) leaves everything unchanged
except that `seen_non3` becomes true once the list is nonempty. -/
theorem foldl_consStep_small (rs : List ConsRec) (segs : List Segment) (st : SegState)
    (hlt : ∀ r ∈ rs, r.bs < 3) (hmax : 3 ≤ st.maxBs) :
    rs.foldl consStep (segs, some st) =
      (segs, some { st with seenNon3 := st.seenNon3 || !rs.isEmpty }) := by
  induction rs generalizing st with
  | nil => simp
  | cons r rs ih =>
    have hr : r.bs < 3 := hlt r (List.mem_cons_self _ _)
    have hr3 : ¬ r.bs = 3 := by omega
    have hgt : ¬ r.bs > st.maxBs := by omega
    have heq : ¬ r.bs = st.maxBs := by omega
    have hstep : consStep (segs, some st) r =
        (segs, some { st with seenNon3 := true }) := by
      simp [consStep, hr3, hgt, heq]
    rw [List.foldl_cons, hstep,
      ih { st with seenNon3 := true } (fun x hx => hlt x (List.mem_cons_of_mem _ hx)) hmax]
    simp

/-- A concrete shift==1 stream whose `block_size` sequence is `[3,3,5,3,7,3]`,
with strictly increasing positions. -/
def c1recs : List ConsRec :=
  [⟨3, 1, 5⟩, ⟨3, 2, 6⟩, ⟨5, 3, 9⟩, ⟨3, 10, 14⟩, ⟨7, 11, 19⟩, ⟨3, 20, 24⟩]

/-- C1 counterexample: on a `block_size` sequence `[3,3,5,3,7,3]` with increasing
positions the consolidator emits exactly THREE segments, not two as claimed: the
final `3` record does not stay inside the second segment — it closes it (with the
`7` record's last B position as end) and immediately reopens a third segment,
which is then closed at end-of-input. -/
theorem claim_C1_counterexample :
    (consolidate c1recs).length = 3 ∧ ¬ (consolidate c1recs).length = 2 := by
  constructor <;> decide

/-- C1 (amended): a shift==1 stream with `block_size` sequence `[3,3,5,3,7,3]`
yields exactly three segments: the first closes at the `3` following the `5`,
using the `5` record's last B position as its end; the second opens there,
extends through the `7`, and closes at the final `3` using the `7` record's last
B position as its end; the third opens at the final `3` and closes at
end-of-input with that record's own last B position and `blocksize_max = 3`. -/
theorem claim_C1 (a1 b1 a2 b2 a3 b3 a4 b4 a5 b5 a6 b6 : Nat) :
    consolidate [⟨3, a1, b1⟩, ⟨3, a2, b2⟩, ⟨5, a3, b3⟩, ⟨3, a4, b4⟩, ⟨7, a5, b5⟩, ⟨3, a6, b6⟩] =
      [⟨a1, b3, (b3 : Int) - (a1 : Int) + 1, 5⟩,
       ⟨a4, b5, (b5 : Int) - (a4 : Int) + 1, 7⟩,
       ⟨a6, b6, (b6 : Int) - (a6 : Int) + 1, 3⟩] := rfl

/-- C10: (i) while in a segment, a record with `block_size ≠ 3` sets `seen_non3`,
updates `max_bs` (together with `end_b_at_max`) exactly when its `block_size`
exceeds the current `max_bs`, and updates `end_b_at_max` alone when it equals it;
(ii) consequently a segment opened by a `3` whose remaining records all have
`block_size ≤ 3` with at least one `block_size < 3` is emitted at end-of-input
with `blocksize_max = 3` and `mono_end` equal to the last B position of the `3`
record that opened it. -/
theorem claim_C10 :
    (∀ (segs : List Segment) (st : SegState) (r : ConsRec), r.bs ≠ 3 →
      consStep (segs, some st) r =
        (segs, some { st with
          seenNon3 := true
          maxBs := if st.maxBs < r.bs then r.bs else st.maxBs
          endBAtMax := if st.maxBs ≤ r.bs then r.bLast else st.endBAtMax })) ∧
    (∀ (a b : Nat) (threes subs : List ConsRec),
      (∀ r ∈ threes, r.bs = 3) → (∀ r ∈ subs, r.bs < 3) → subs ≠ [] →
      consolidate (⟨3, a, b⟩ :: (threes ++ subs)) =
        [⟨a, b, (b : Int) - (a : Int) + 1, 3⟩]) := by
  constructor
  · intro segs st r hne
    rcases Nat.lt_trichotomy st.maxBs r.bs with h | h | h
    · simp only [consStep]
      rw [if_neg hne, if_pos (h : r.bs > st.maxBs), if_pos h, if_pos (Nat.le_of_lt h)]
    · simp only [consStep]
      rw [if_neg hne, if_neg (by omega : ¬ r.bs > st.maxBs), if_pos h.symm,
        if_neg (by omega : ¬ st.maxBs < r.bs), if_pos (Nat.le_of_eq h)]
    · simp only [consStep]
      rw [if_neg hne, if_neg (by omega : ¬ r.bs > st.maxBs),
        if_neg (by omega : ¬ r.bs = st.maxBs), if_neg (by omega : ¬ st.maxBs < r.bs),
        if_neg (by omega : ¬ st.maxBs ≤ r.bs)]
  · intro a b threes subs h3 hlt hne
    have hopen : consStep ([], none) ⟨3, a, b⟩ = ([], some (openSeg a b)) := rfl
    unfold consolidate
    rw [List.foldl_cons, hopen, List.foldl_append]
    obtain ⟨st', heq, hseen, hstart, hmax, hend, _⟩ :=
      foldl_consStep_threes threes [] (openSeg a b) h3 rfl
    rw [heq, foldl_consStep_small subs [] st' hlt (by rw [hmax]; rfl)]
    have hne' : subs.isEmpty = false := by
      cases subs with
      | nil => exact absurd rfl hne
      | cons x xs => rfl
    simp [finalize, hseen, hne', hstart, hmax, hend, openSeg]

/-- Witness for C10 at concrete inputs: a `block_size 5` record while in a
segment with `max_bs = 3`, and the stream `[3, 3, 2]` closed at end-of-input. -/
theorem claim_C10_witness :
    consStep ([], some ⟨false, 1, 5, 3, 5⟩) ⟨5, 2, 9⟩ = ([], some ⟨true, 1, 5, 5, 9⟩) ∧
    consolidate [⟨3, 1, 5⟩, ⟨3, 2, 6⟩, ⟨2, 3, 7⟩] = [⟨1, 5, 5, 3⟩] := by
  constructor
  · have h := claim_C10.1 [] ⟨false, 1, 5, 3, 5⟩ ⟨5, 2, 9⟩ (by decide)
    simpa using h
  · have h := claim_C10.2 1 5 [⟨3, 2, 6⟩] [⟨2, 3, 7⟩] (by decide) (by decide) (by decide)
    simpa using h

/-! ## HOREnumerator (`find_hors` of 01.HOR_detection_and_scoring.py)

The similarity relation is passed as a total boolean function on indices; the
script only ever reads `S[i][i+d]` with both indices inside the `N × N` matrix
(`i < N - d`), so entries outside that square never influence the result. -/

/-- One emitted HOR record (one dict appended to `hors`). -/
structure HORRecord where
  block_size : Nat
  shift : Nat
  a_start : Nat
  b_start : Nat
  A_pos : List Nat
  B_pos : List Nat
  A_labels : List String
  B_labels : List String
  deriving Repr, DecidableEq

/-- The run-extension loop: starting at `i`, count how many consecutive indices
`k` satisfy `k < e` and `S[k][k+d]`.  The source computes this as `Lrun = 1`
followed by `while k < end and S[k][k+d]`, entered only when `S[i][i+d]` holds;
the count below agrees with it at every call site.  `fuel = e - i` bounds the
iteration count, so the fuel never runs out where the Python loop would still
be running. -/
def runLenAux (S : Nat → Nat → Bool) (d e : Nat) : Nat → Nat → Nat
  | 0, _ => 0
  | fuel + 1, i => if i < e ∧ S i (i + d) then runLenAux S d e fuel (i + 1) + 1 else 0

/-- Length of the diagonal run of true entries at offset `d` starting at `i`. -/
def runLen (S : Nat → Nat → Bool) (d e i : Nat) : Nat :=
  runLenAux S d e (e - i) i

/-- The two nested `for L ... for off ...` loops emitting every record of one
run (`start`, `Lrun`):  `maxL = min(Lrun, max_block)`, `L` ranges over
`[min_block, maxL]` and `off` over `[0, Lrun - L]`. -/
def emitRun (arr : List String) (d minB maxB start Lrun : Nat) : List HORRecord :=
  let maxL := min Lrun maxB
  (List.range' minB (maxL + 1 - minB)).flatMap fun L =>
    (List.range (Lrun - L + 1)).map fun off =>
      let a0 := start + off
      let b0 := a0 + d
      let Apos := List.range' (a0 + 1) L
      let Bpos := List.range' (b0 + 1) L
      { block_size := L
        shift := d
        a_start := a0
        b_start := b0
        A_pos := Apos
        B_pos := Bpos
        A_labels := Apos.map fun x => arr.getD (x - 1) ""
        B_labels := Bpos.map fun x => arr.getD (x - 1) "" }

/-- The `while i < end` scan at one offset: hitting a true entry emits the whole
run and resumes strictly after it (`i = k`); otherwise `i` advances by one.
`fuel ≥ e - i` holds at every recursive call starting from `fuel = e, i = 0`,
so the zero-fuel branch is never taken where the Python loop would continue. -/
def scanAux (arr : List String) (S : Nat → Nat → Bool) (d e minB maxB : Nat) :
    Nat → Nat → List HORRecord
  | 0, _ => []
  | fuel + 1, i =>
    if i < e then
      if S i (i + d) then
        emitRun arr d minB maxB i (runLen S d e i) ++
          scanAux arr S d e minB maxB fuel (i + runLen S d e i)
      else scanAux arr S d e minB maxB fuel (i + 1)
    else []

/-- All records found at offset `d` (`end = N - d`). -/
def scanOffset (arr : List String) (S : Nat → Nat → Bool) (d e minB maxB : Nat) :
    List HORRecord :=
  scanAux arr S d e minB maxB e 0

/-- `find_hors`: slide offsets `d = 1 .. N-1` and concatenate the per-offset
emissions in order. -/
def find_hors (arr : List String) (S : Nat → Nat → Bool) (minB maxB : Nat) :
    List HORRecord :=
  (List.range' 1 (arr.length - 1)).flatMap fun d =>
    scanOffset arr S d (arr.length - d) minB maxB

/-- `getD` of an arithmetic-progression list. -/
theorem getD_range' (s n k : Nat) (hk : k < n) : (List.range' s n).getD k 0 = s + k := by
  have hl : k < (List.range' s n).length := by
    rw [List.length_range']
    exact hk
  rw [List.getD_eq_getElem _ _ hl, List.getElem_range'_1]

/-- Everything a record of `emitRun` satisfies, read off the two loop ranges. -/
theorem mem_emitRun {arr : List String} {d minB maxB s l : Nat} {h : HORRecord}
    (hm : h ∈ emitRun arr d minB maxB s l) :
    minB ≤ h.block_size ∧ h.block_size ≤ maxB ∧ h.block_size ≤ l ∧
    s ≤ h.a_start ∧ h.a_start + h.block_size ≤ s + l ∧
    h.shift = d ∧ h.b_start = h.a_start + d ∧
    h.A_pos = List.range' (h.a_start + 1) h.block_size ∧
    h.B_pos = List.range' (h.b_start + 1) h.block_size := by
  unfold emitRun at hm
  obtain ⟨L, hL, hm⟩ := List.mem_flatMap.mp hm
  obtain ⟨off, hoff, rfl⟩ := List.mem_map.mp hm
  obtain ⟨hL1, hL2⟩ := List.mem_range'_1.mp hL
  have hoff' : off < l - L + 1 := List.mem_range.mp hoff
  have hLle : L ≤ min l maxB := by omega
  refine ⟨hL1, ?_, ?_, ?_, ?_, rfl, rfl, rfl, rfl⟩ <;> simp at hLle ⊢ <;> omega

/-- Every record the offset-`d` scan emits comes from some run emission. -/
theorem mem_scanAux {arr : List String} {S : Nat → Nat → Bool} {d e minB maxB : Nat}
    {h : HORRecord} :
    ∀ {fuel i : Nat}, h ∈ scanAux arr S d e minB maxB fuel i →
      ∃ s, h ∈ emitRun arr d minB maxB s (runLen S d e s) := by
  intro fuel
  induction fuel with
  | zero => intro i hm; simp [scanAux] at hm
  | succ fuel ih =>
    intro i hm
    unfold scanAux at hm
    by_cases h1 : i < e
    · rw [if_pos h1] at hm
      by_cases h2 : S i (i + d)
      · rw [if_pos h2] at hm
        rcases List.mem_append.mp hm with hm | hm
        · exact ⟨i, hm⟩
        · exact ih hm
      · rw [if_neg h2] at hm
        exact ih hm
    · rw [if_neg h1] at hm
      simp at hm

/-- Every record of `find_hors` comes from a run emission at its own offset. -/
theorem mem_find_hors {arr : List String} {S : Nat → Nat → Bool} {minB maxB : Nat}
    {h : HORRecord} (hm : h ∈ find_hors arr S minB maxB) :
    ∃ d s, h ∈ emitRun arr d minB maxB s (runLen S d (arr.length - d) s) := by
  obtain ⟨d, _, hm⟩ := List.mem_flatMap.mp hm
  obtain ⟨s, hs⟩ := mem_scanAux hm
  exact ⟨d, s, hs⟩

/-- C5: every emitted HOR record has `min_block ≤ block_size ≤ max_block`,
`A_pos`/`B_pos` of equal length `block_size`, both strictly increasing and
contiguous (each step `+1`), and `B_pos[k] = A_pos[k] + shift` for every `k`. -/
theorem claim_C5 (arr : List String) (S : Nat → Nat → Bool) (minB maxB : Nat)
    (h : HORRecord) (hm : h ∈ find_hors arr S minB maxB) :
    minB ≤ h.block_size ∧ h.block_size ≤ maxB ∧
    h.A_pos.length = h.block_size ∧ h.B_pos.length = h.block_size ∧
    (∀ k, k + 1 < h.block_size → h.A_pos.getD (k + 1) 0 = h.A_pos.getD k 0 + 1) ∧
    (∀ k, k + 1 < h.block_size → h.B_pos.getD (k + 1) 0 = h.B_pos.getD k 0 + 1) ∧
    (∀ k, k < h.block_size → h.B_pos.getD k 0 = h.A_pos.getD k 0 + h.shift) := by
  obtain ⟨d, s, hmem⟩ := mem_find_hors hm
  obtain ⟨h1, h2, _, _, _, hsh, hb, hA, hB⟩ := mem_emitRun hmem
  refine ⟨h1, h2, ?_, ?_, ?_, ?_, ?_⟩
  · rw [hA, List.length_range']
  · rw [hB, List.length_range']
  · intro k hk
    rw [hA, getD_range' _ _ _ hk, getD_range' _ _ _ (by omega)]
    omega
  · intro k hk
    rw [hB, getD_range' _ _ _ hk, getD_range' _ _ _ (by omega)]
    omega
  · intro k hk
    rw [hA, hB, getD_range' _ _ _ hk, getD_range' _ _ _ hk, hb, hsh]
    omega

/-- Witness for C5: the block-size-3 record at `a_start = 0` of the all-true
6-label array is emitted and satisfies the block-size bounds. -/
theorem claim_C5_witness :
    3 ≤ (⟨3, 1, 0, 1, [1, 2, 3], [2, 3, 4],
          ["m1", "m2", "m3"], ["m2", "m3", "m4"]⟩ : HORRecord).block_size ∧
    (⟨3, 1, 0, 1, [1, 2, 3], [2, 3, 4],
      ["m1", "m2", "m3"], ["m2", "m3", "m4"]⟩ : HORRecord).block_size ≤ 3 := by
  have h := claim_C5 ["m1", "m2", "m3", "m4", "m5", "m6"] (fun _ _ => true) 3 3
    ⟨3, 1, 0, 1, [1, 2, 3], [2, 3, 4], ["m1", "m2", "m3"], ["m2", "m3", "m4"]⟩
    (by decide)
  exact ⟨h.1, h.2.1⟩

/-- C6: for `N = 6`, an all-true relation and `min_block = max_block = 3`, the
offset-1 scan finds a single run of length 5 (starting at index 0, spanning the
whole diagonal), and exactly 3 records are emitted at that offset, with 0-based
`a_start` values 0, 1, 2. -/
theorem claim_C6 :
    runLen (fun _ _ => true) 1 5 0 = 5 ∧
    ((find_hors ["m1", "m2", "m3", "m4", "m5", "m6"] (fun _ _ => true) 3 3).filter
      (fun h => h.shift == 1)).length = 3 ∧
    ((find_hors ["m1", "m2", "m3", "m4", "m5", "m6"] (fun _ _ => true) 3 3).filter
      (fun h => h.shift == 1)).map (fun h => h.a_start) = [0, 1, 2] := by
  refine ⟨by decide, by decide, by decide⟩

/-! ## ParticipationScorer (`compute_scores` of 01.HOR_detection_and_scoring.py)

Python sets of labels are modelled as `Finset String`; `forms[i] += 1` on the
length-N list is modelled with `List.set` (all verified runs stay in bounds).
The per-row percent string (`100·|partners|/N` to 6 decimals) is pure output
formatting of floats and is not modelled. -/

/-- `forms[i] += 1`. -/
def bump (l : List Nat) (i : Nat) : List Nat :=
  l.set i (l.getD i 0 + 1)

/-- One iteration of the inner `for t in range(L)` loop of `compute_scores`:
`forms[i] += 1; partners[i].add(arr[j]); forms[j] += 1; partners[j].add(arr[i])`
with `i = a0 + t`, `j = b0 + t`. -/
def scoreStep (arr : List String) (a0 b0 : Nat)
    (fp : List Nat × List (Finset String)) (t : Nat) :
    List Nat × List (Finset String) :=
  let i := a0 + t
  let j := b0 + t
  let forms1 := bump fp.1 i
  let partners1 := fp.2.set i (insert (arr.getD j "") (fp.2.getD i ∅))
  let forms2 := bump forms1 j
  let partners2 := partners1.set j (insert (arr.getD i "") (partners1.getD j ∅))
  (forms2, partners2)

/-- Processing one HOR record in `compute_scores`. -/
def scoreRecord (arr : List String) (fp : List Nat × List (Finset String))
    (h : HORRecord) : List Nat × List (Finset String) :=
  (List.range h.block_size).foldl (scoreStep arr h.a_start h.b_start) fp

/-- The accumulation phase of `compute_scores`: zero-initialised `forms` and
empty partner sets, then every HOR record in order. -/
def computeScores (arr : List String) (hors : List HORRecord) :
    List Nat × List (Finset String) :=
  hors.foldl (scoreRecord arr) (List.replicate arr.length 0, List.replicate arr.length ∅)

/-- Number of times position `i` occurs among a record's A-slots and B-slots
(0, 1 or 2; 2 exactly when the two blocks overlap at `i`). -/
def touchCount (i : Nat) (h : HORRecord) : Nat :=
  (if h.a_start ≤ i ∧ i < h.a_start + h.block_size then 1 else 0) +
  (if h.b_start ≤ i ∧ i < h.b_start + h.block_size then 1 else 0)

/-- The claim's notion: the record touches position `i`, i.e. `i` lies in its
A block or its B block. -/
def touches (h : HORRecord) (i : Nat) : Bool :=
  decide (h.a_start ≤ i ∧ i < h.a_start + h.block_size) ||
  decide (h.b_start ≤ i ∧ i < h.b_start + h.block_size)

theorem getD_bump (l : List Nat) (i j : Nat) (hi : i < l.length) :
    (bump l i).getD j 0 = l.getD j 0 + if j = i then 1 else 0 := by
  unfold bump
  by_cases h : j = i
  · subst h
    rw [List.getD_eq_getElem?_getD, List.getElem?_set_self hi]
    simp
  · rw [List.getD_eq_getElem?_getD, List.getElem?_set_ne (fun he => h he.symm),
      ← List.getD_eq_getElem?_getD]
    simp [h]

theorem length_bump (l : List Nat) (i : Nat) : (bump l i).length = l.length :=
  List.length_set l i _

theorem length_scoreStep (arr : List String) (a0 b0 : Nat)
    (fp : List Nat × List (Finset String)) (t : Nat) :
    (scoreStep arr a0 b0 fp t).1.length = fp.1.length := by
  simp [scoreStep, length_bump]

/-- The inner loop adds, at every position `i`, one for each A-slot equal to `i`
and one for each B-slot equal to `i`. -/
theorem inner_forms (arr : List String) (a0 b0 n : Nat) :
    ∀ (L : Nat) (fp : List Nat × List (Finset String)), fp.1.length = n →
      a0 + L ≤ n → b0 + L ≤ n → ∀ i,
      ((List.range L).foldl (scoreStep arr a0 b0) fp).1.getD i 0 =
        fp.1.getD i 0 + ((if a0 ≤ i ∧ i < a0 + L then 1 else 0) +
          (if b0 ≤ i ∧ i < b0 + L then 1 else 0)) ∧
      ((List.range L).foldl (scoreStep arr a0 b0) fp).1.length = n := by
  intro L
  induction L with
  | zero =>
    intro fp hlen _ _ i
    simp [hlen]
  | succ L ih =>
    intro fp hlen ha hb i
    rw [List.range_succ, List.foldl_append, List.foldl_cons, List.foldl_nil]
    have hprev := ih fp hlen (by omega) (by omega)
    have hplen : ((List.range L).foldl (scoreStep arr a0 b0) fp).1.length = n := (hprev 0).2
    set prev := (List.range L).foldl (scoreStep arr a0 b0) fp with hp
    have h1 : (scoreStep arr a0 b0 prev L).1 = bump (bump prev.1 (a0 + L)) (b0 + L) := rfl
    constructor
    · rw [h1, getD_bump _ _ _ (by rw [length_bump, hplen]; omega),
        getD_bump _ _ _ (by rw [hplen]; omega), (hprev i).1]
      split_ifs <;> omega
    · rw [h1, length_bump, length_bump, hplen]

/-- The record loop of `compute_scores` adds `touchCount` per record. -/
theorem outer_forms (arr : List String) (n : Nat) :
    ∀ (hors : List HORRecord) (fp : List Nat × List (Finset String)), fp.1.length = n →
      (∀ h ∈ hors, h.a_start + h.block_size ≤ n ∧ h.b_start + h.block_size ≤ n) → ∀ i,
      (hors.foldl (scoreRecord arr) fp).1.getD i 0 =
        fp.1.getD i 0 + (hors.map (touchCount i)).sum ∧
      (hors.foldl (scoreRecord arr) fp).1.length = n := by
  intro hors
  induction hors with
  | nil =>
    intro fp hlen _ i
    simp [hlen]
  | cons h hors ih =>
    intro fp hlen hb i
    have hbh := hb h (List.mem_cons_self _ _)
    have hstep := inner_forms arr h.a_start h.b_start n h.block_size fp hlen hbh.1 hbh.2
    have hrec : scoreRecord arr fp h = (List.range h.block_size).foldl
        (scoreStep arr h.a_start h.b_start) fp := rfl
    rw [List.foldl_cons]
    have hrest := ih (scoreRecord arr fp h) (by rw [hrec]; exact (hstep 0).2)
      (fun x hx => hb x (List.mem_cons_of_mem _ hx))
    refine ⟨?_, (hrest i).2⟩
    rw [(hrest i).1, hrec, (hstep i).1]
    simp [touchCount]
    ring

/-- A single shift-1 record whose A block `{0,1,2}` and B block `{1,2,3}`
overlap at positions 1 and 2. -/
def c2rec : HORRecord :=
  ⟨3, 1, 0, 1, [1, 2, 3], [2, 3, 4], ["a", "b", "c"], ["b", "c", "d"]⟩

/-- C2 counterexample: with one overlapping-blocks record, position 1 is touched
by exactly one HOR record, but `compute_scores` reports `forms = 2` for it —
the counter counts slot incidences (once per block containing the position),
not record instances. -/
theorem claim_C2_counterexample :
    (computeScores ["a", "b", "c", "d"] [c2rec]).1.getD 1 0 = 2 ∧
    (([c2rec].filter (fun h => touches h 1)).length = 1) ∧
    ¬ (computeScores ["a", "b", "c", "d"] [c2rec]).1.getD 1 0 =
        ([c2rec].filter (fun h => touches h 1)).length := by
  refine ⟨by decide, by decide, by decide⟩

/-- C2 (amended): for every in-bounds record list, the forms value of position
`i` equals the number of block-slot incidences at `i` — each record contributes
one for its A block containing `i` and one for its B block containing `i`
(hence two when the blocks overlap at `i`), rather than one per touching
record. -/
theorem claim_C2 (arr : List String) (hors : List HORRecord) (i : Nat)
    (hb : ∀ h ∈ hors,
      h.a_start + h.block_size ≤ arr.length ∧ h.b_start + h.block_size ≤ arr.length) :
    (computeScores arr hors).1.getD i 0 = (hors.map (touchCount i)).sum := by
  have h := (outer_forms arr arr.length hors
    (List.replicate arr.length 0, List.replicate arr.length ∅) (by simp) hb i).1
  unfold computeScores
  rw [h]
  simp

/-- Witness for C2 at the concrete overlapping-blocks input. -/
theorem claim_C2_witness :
    (computeScores ["a", "b", "c", "d"] [c2rec]).1.getD 1 0 =
      ([c2rec].map (touchCount 1)).sum :=
  claim_C2 ["a", "b", "c", "d"] [c2rec] 1 (by decide)

/-! ## SimilarityRelationBuilder
(`read_fa_order`, `pairs_identity_max`, `build_similarity_from_pairs`)

Identity values (Python floats) are modelled as rationals; only their order
comparisons matter here.  A row is modelled after the `DictReader` stage: the
two label strings plus the optionally-parsed identity value (`none` models a
row on which `float(...)` raises, taking the `except: continue` path). -/

/-- One row of the pairwise identity table. -/
structure PairRow where
  a : String
  b : String
  iden : Option ℚ
  deriving Repr, DecidableEq

/-- `pairs_identity_max`: running maximum over parseable identity values,
seeded with `-1.0`; a final value below zero raises `ValueError`. -/
def pairsIdentityMax (rows : List PairRow) : Except String ℚ :=
  let mx := rows.foldl
    (fun mx r => match r.iden with
      | some v => if v > mx then v else mx
      | none => mx) (-1)
  if mx < 0 then .error "No numeric identity found" else .ok mx

/-- The `--scale` mode. -/
inductive Scale
  | auto
  | fraction
  | percent
  deriving Repr, DecidableEq

/-- The `idx = {lab: i for i, lab in enumerate(labels)}` dict; a later
duplicate label overwrites an earlier one, as in a Python dict comprehension. -/
def mkIdx (labels : List String) : String → Option Nat :=
  labels.enum.foldl (fun m p => fun x => if x = p.2 then some p.1 else m x) (fun _ => none)

/-- Python `str.strip()` (as applied to both label columns): drop leading and
trailing whitespace.  Modelled on the character list so that it evaluates
inside the kernel; it agrees with `String.trim`. -/
def pyStrip (s : String) : String :=
  ⟨((s.data.dropWhile Char.isWhitespace).reverse.dropWhile Char.isWhitespace).reverse⟩

/-- `S[a][b] = True`. -/
def setTrue (S : Nat → Nat → Bool) (a b : Nat) : Nat → Nat → Bool :=
  fun i j => if i = a ∧ j = b then true else S i j

/-- Result of `build_similarity_from_pairs`: the materialised `N × N` matrix
plus the skip diagnostics. -/
structure BuildResult where
  S : List (List Bool)
  missA : Nat
  missB : Nat
  total : Nat
  deriving Repr, DecidableEq

/-- One row of the second pass of `build_similarity_from_pairs`, acting on the
matrix (as a function) and the `miss_a`/`miss_b`/`total` counters. -/
def fillStep (idx : String → Option Nat) (ms : Nat) (thr : ℚ)
    (st : (Nat → Nat → Bool) × Nat × Nat × Nat) (r : PairRow) :
    (Nat → Nat → Bool) × Nat × Nat × Nat :=
  match st with
  | (S, mA, mB, tot) =>
    match r.iden with
    | none => (S, mA, mB, tot + 1)
    | some v =>
      match idx (pyStrip r.a) with
      | none => (S, mA + 1, mB, tot + 1)
      | some ia =>
        match idx (pyStrip r.b) with
        | none => (S, mA, mB + 1, tot + 1)
        | some ib =>
          if ia = ib then (S, mA, mB, tot + 1)
          else if 0 < ms ∧ ms < max ia ib - min ia ib then (S, mA, mB, tot + 1)
          else if thr ≤ v then (setTrue (setTrue S ia ib) ib ia, mA, mB, tot + 1)
          else (S, mA, mB, tot + 1)

/-- The matrix component of `fillStep` in isolation. -/
def fillS (idx : String → Option Nat) (ms : Nat) (thr : ℚ)
    (S : Nat → Nat → Bool) (r : PairRow) : Nat → Nat → Bool :=
  match r.iden with
  | none => S
  | some v =>
    match idx (pyStrip r.a) with
    | none => S
    | some ia =>
      match idx (pyStrip r.b) with
      | none => S
      | some ib =>
        if ia = ib then S
        else if 0 < ms ∧ ms < max ia ib - min ia ib then S
        else if thr ≤ v then setTrue (setTrue S ia ib) ib ia
        else S

/-- Does the row take the `miss_a += 1` path? -/
def rowSkipA (idx : String → Option Nat) (r : PairRow) : Bool :=
  r.iden.isSome && (idx (pyStrip r.a)).isNone

/-- Does the row take the `miss_b += 1` path? -/
def rowSkipB (idx : String → Option Nat) (r : PairRow) : Bool :=
  r.iden.isSome && (idx (pyStrip r.a)).isSome && (idx (pyStrip r.b)).isNone

theorem fillStep_eq (idx : String → Option Nat) (ms : Nat) (thr : ℚ)
    (st : (Nat → Nat → Bool) × Nat × Nat × Nat) (r : PairRow) :
    fillStep idx ms thr st r =
      (fillS idx ms thr st.1 r,
       st.2.1 + (if rowSkipA idx r then 1 else 0),
       st.2.2.1 + (if rowSkipB idx r then 1 else 0),
       st.2.2.2 + 1) := by
  obtain ⟨S, mA, mB, tot⟩ := st
  cases hi : r.iden with
  | none => simp [fillStep, fillS, rowSkipA, rowSkipB, hi]
  | some v =>
    cases ha : idx (pyStrip r.a) with
    | none => simp [fillStep, fillS, rowSkipA, rowSkipB, hi, ha]
    | some ia =>
      cases hb : idx (pyStrip r.b) with
      | none => simp [fillStep, fillS, rowSkipA, rowSkipB, hi, ha, hb]
      | some ib =>
        simp only [fillStep, fillS, rowSkipA, rowSkipB, hi, ha, hb]
        split_ifs <;> simp_all

/-- Componentwise description of the whole second pass. -/
theorem foldl_fillStep (idx : String → Option Nat) (ms : Nat) (thr : ℚ) :
    ∀ (rows : List PairRow) (S : Nat → Nat → Bool) (mA mB tot : Nat),
      rows.foldl (fillStep idx ms thr) (S, mA, mB, tot) =
        (rows.foldl (fillS idx ms thr) S,
         mA + (rows.filter (rowSkipA idx)).length,
         mB + (rows.filter (rowSkipB idx)).length,
         tot + rows.length) := by
  intro rows
  induction rows with
  | nil => intro S mA mB tot; simp
  | cons r rows ih =>
    intro S mA mB tot
    rw [List.foldl_cons, fillStep_eq, List.foldl_cons, ih]
    by_cases hA : rowSkipA idx r <;> by_cases hB : rowSkipB idx r <;>
      simp [List.filter_cons, hA, hB] <;> omega

/-- The second pass of `build_similarity_from_pairs` at an already-decided
comparison threshold: diagonal-true initial matrix, one `fillStep` per row,
then the matrix is materialised row by row.  This function is total: no row can
raise once the scale has been decided. -/
def buildWithThr (labels : List String) (rows : List PairRow) (thr : ℚ) (ms : Nat) :
    BuildResult :=
  let n := labels.length
  let idx := mkIdx labels
  let S0 : Nat → Nat → Bool := fun i j => decide (i = j) && decide (i < n)
  let res := rows.foldl (fillStep idx ms thr) (S0, 0, 0, 0)
  { S := (List.range n).map fun i => (List.range n).map fun j => res.1 i j
    missA := res.2.1
    missB := res.2.2.1
    total := res.2.2.2 }

/-- The scale decision of `build_similarity_from_pairs`: `auto` samples the
maximum identity value and treats `mx ≤ 1.5` as fraction scale. -/
def scaleUseFraction (rows : List PairRow) : Scale → Except String Bool
  | .auto => (pairsIdentityMax rows).map fun mx => decide (mx ≤ 3 / 2)
  | .fraction => .ok true
  | .percent => .ok false

/-- `build_similarity_from_pairs`: decide the scale, fix the threshold
(`thr = id_threshold` in fraction scale, `id_threshold · 100` in percent
scale), then run the filling pass. -/
def build_similarity_from_pairs (labels : List String) (rows : List PairRow)
    (idThreshold : ℚ) (scale : Scale) (ms : Nat) : Except String BuildResult := do
  let uf ← scaleUseFraction rows scale
  pure (buildWithThr labels rows (if uf then idThreshold else idThreshold * 100) ms)

/-- `read_fa_order` after FASTA parsing: an empty label list raises
`ValueError("Empty FASTA: ...")`. -/
def read_fa_order (labels : List String) : Except String (List String) :=
  if labels.isEmpty then .error "Empty FASTA" else .ok labels

/-- The per-array pipeline prefix of `run_one`: label reading followed by the
similarity-relation builder. -/
def pipelineSim (labels : List String) (rows : List PairRow)
    (idThreshold : ℚ) (scale : Scale) (ms : Nat) : Except String BuildResult := do
  let arr ← read_fa_order labels
  build_similarity_from_pairs arr rows idThreshold scale ms

/-- `getD` through the row-materialisation map. -/
theorem getD_map_range {α : Type} (n i : Nat) (f : Nat → α) (d : α) (hi : i < n) :
    ((List.range n).map f).getD i d = f i := by
  rw [List.getD_eq_getElem _ _ (by simpa using hi), List.getElem_map, List.getElem_range]

/-- The only matrix mutation the filling pass performs is the symmetric pair of
assignments `S[ia][ib] = S[ib][ia] = True`. -/
theorem fillS_shape (idx : String → Option Nat) (ms : Nat) (thr : ℚ)
    (S : Nat → Nat → Bool) (r : PairRow) :
    fillS idx ms thr S r = S ∨
      ∃ a b, fillS idx ms thr S r = setTrue (setTrue S a b) b a := by
  cases hi : r.iden with
  | none => exact Or.inl (by simp [fillS, hi])
  | some v =>
    cases ha : idx (pyStrip r.a) with
    | none => exact Or.inl (by simp [fillS, hi, ha])
    | some ia =>
      cases hb : idx (pyStrip r.b) with
      | none => exact Or.inl (by simp [fillS, hi, ha, hb])
      | some ib =>
        simp only [fillS, hi, ha, hb]
        split_ifs with h1 h2 h3
        · exact Or.inl rfl
        · exact Or.inl rfl
        · exact Or.inr ⟨ia, ib, rfl⟩
        · exact Or.inl rfl

theorem setTrue2_symm (S : Nat → Nat → Bool) (a b : Nat) (h : ∀ i j, S i j = S j i)
    (i j : Nat) : setTrue (setTrue S a b) b a i j = setTrue (setTrue S a b) b a j i := by
  unfold setTrue
  split_ifs <;> first | rfl | tauto

theorem setTrue2_diag (S : Nat → Nat → Bool) (a b i : Nat) (h : S i i = true) :
    setTrue (setTrue S a b) b a i i = true := by
  unfold setTrue
  split_ifs <;> simp [h]

/-- Symmetry and the true diagonal are invariants of the filling pass. -/
theorem foldl_fillS_symm_diag (idx : String → Option Nat) (ms : Nat) (thr : ℚ) (n : Nat) :
    ∀ (rows : List PairRow) (S : Nat → Nat → Bool),
      (∀ i j, S i j = S j i) → (∀ i, i < n → S i i = true) →
      (∀ i j, rows.foldl (fillS idx ms thr) S i j = rows.foldl (fillS idx ms thr) S j i) ∧
      (∀ i, i < n → rows.foldl (fillS idx ms thr) S i i = true) := by
  intro rows
  induction rows with
  | nil => intro S hsym hdiag; exact ⟨hsym, hdiag⟩
  | cons r rows ih =>
    intro S hsym hdiag
    rw [List.foldl_cons]
    rcases fillS_shape idx ms thr S r with hS | ⟨a, b, hS⟩
    · rw [hS]; exact ih S hsym hdiag
    · rw [hS]
      exact ih _ (setTrue2_symm S a b hsym) (fun i hi => setTrue2_diag S a b i (hdiag i hi))

/-- The materialised matrix of any `buildWithThr` run is symmetric with a true
diagonal. -/
theorem buildWithThr_symm_diag (labels : List String) (rows : List PairRow)
    (thr : ℚ) (ms : Nat) :
    (∀ i j, i < labels.length → j < labels.length →
      (((buildWithThr labels rows thr ms).S.getD i []).getD j false) =
      (((buildWithThr labels rows thr ms).S.getD j []).getD i false)) ∧
    (∀ i, i < labels.length →
      (((buildWithThr labels rows thr ms).S.getD i []).getD i false) = true) := by
  set n := labels.length with hn
  have hS0sym : ∀ i j, (fun i j => decide (i = j) && decide (i < n) : Nat → Nat → Bool) i j =
      (fun i j => decide (i = j) && decide (i < n) : Nat → Nat → Bool) j i := by
    intro i j
    by_cases h : i = j
    · subst h; rfl
    · have h2 : ¬ j = i := fun he => h he.symm
      simp [h, h2]
  have hS0diag : ∀ i, i < n →
      (fun i j => decide (i = j) && decide (i < n) : Nat → Nat → Bool) i i = true := by
    intro i hi; simp [hi]
  obtain ⟨hsym, hdiag⟩ := foldl_fillS_symm_diag (mkIdx labels) ms thr n rows _ hS0sym hS0diag
  have hmat : (buildWithThr labels rows thr ms).S =
      (List.range n).map fun i => (List.range n).map fun j =>
        (rows.foldl (fillS (mkIdx labels) ms thr) (fun i j => decide (i = j) && decide (i < n))) i j := by
    unfold buildWithThr
    simp only [foldl_fillStep]
  constructor
  · intro i j hi hj
    rw [hmat, getD_map_range n i _ _ hi, getD_map_range n j _ _ hj,
      getD_map_range n j _ _ hj, getD_map_range n i _ _ hi]
    exact hsym i j
  · intro i hi
    rw [hmat, getD_map_range n i _ _ hi, getD_map_range n i _ _ hi]
    exact hdiag i hi

/-- C8: whatever the scale mode, threshold and shift cap, a successfully built
similarity matrix is symmetric and its diagonal is true. -/
theorem claim_C8 (labels : List String) (rows : List PairRow) (t : ℚ) (sc : Scale)
    (ms : Nat) (res : BuildResult)
    (hok : build_similarity_from_pairs labels rows t sc ms = .ok res) :
    (∀ i j, i < labels.length → j < labels.length →
      (res.S.getD i []).getD j false = (res.S.getD j []).getD i false) ∧
    (∀ i, i < labels.length → (res.S.getD i []).getD i false = true) := by
  rcases hsc : scaleUseFraction rows sc with e | uf
  · rw [build_similarity_from_pairs, hsc] at hok
    exact absurd (hok : (Except.error e : Except String BuildResult) = .ok res) (by simp)
  · rw [build_similarity_from_pairs, hsc] at hok
    have h2 : Except.ok (buildWithThr labels rows (if uf then t else t * 100) ms) =
        (Except.ok res : Except String BuildResult) := hok
    rw [← Except.ok.inj h2]
    exact buildWithThr_symm_diag labels rows _ ms

/-- Witness for C8: the two-label array with one qualifying identity row. -/
theorem claim_C8_witness :
    (((buildWithThr ["x", "y"] [⟨"x", "y", some (97/100)⟩] (96/100) 0).S.getD 0 []).getD 1 false =
      ((buildWithThr ["x", "y"] [⟨"x", "y", some (97/100)⟩] (96/100) 0).S.getD 1 []).getD 0 false) ∧
    ((buildWithThr ["x", "y"] [⟨"x", "y", some (97/100)⟩] (96/100) 0).S.getD 0 []).getD 0 false
      = true := by
  have h := claim_C8 ["x", "y"] [⟨"x", "y", some (97/100)⟩] (96/100) .fraction 0
    (buildWithThr ["x", "y"] [⟨"x", "y", some (97/100)⟩] (96/100) 0) rfl
  exact ⟨h.1 0 1 (by decide) (by decide), h.2 0 (by decide)⟩

/-- C7: in `auto` scale mode, when the sampled maximum identity `mx` exists,
the builder behaves exactly as the second pass at threshold `id_threshold`
(each value compared directly to the threshold) if `mx ≤ 1.5`, and as the
second pass at threshold `id_threshold · 100` otherwise. -/
theorem claim_C7 (labels : List String) (rows : List PairRow) (t : ℚ) (ms : Nat)
    (mx : ℚ) (hmx : pairsIdentityMax rows = .ok mx) :
    build_similarity_from_pairs labels rows t .auto ms =
      .ok (buildWithThr labels rows (if mx ≤ 3 / 2 then t else t * 100) ms) := by
  rw [build_similarity_from_pairs]
  have hsc : scaleUseFraction rows .auto = .ok (decide (mx ≤ 3 / 2)) := by
    rw [scaleUseFraction, hmx]
    rfl
  rw [hsc]
  by_cases h : mx ≤ 3 / 2
  · simp [h]
  · simp [h]

/-- Witness for C7: one row with identity 1 gives `mx = 1 ≤ 1.5`. -/
theorem claim_C7_witness :
    build_similarity_from_pairs ["x", "y"] [⟨"x", "y", some 1⟩] (96/100) .auto 0 =
      .ok (buildWithThr ["x", "y"] [⟨"x", "y", some 1⟩]
        (if (1 : ℚ) ≤ 3 / 2 then 96/100 else 96/100 * 100) 0) :=
  claim_C7 ["x", "y"] [⟨"x", "y", some 1⟩] (96/100) 0 1 (by norm_num [pairsIdentityMax])

/-- C9: a parseable identity row one of whose labels does not resolve in the
label→index map is skipped: the resulting matrix is the one obtained without
the row (the rest of the table is still processed on both sides of it), while
the miss diagnostics grow by exactly one.  (`buildWithThr` is a total function,
so no such row can raise.) -/
theorem claim_C9 (labels : List String) (pre post : List PairRow) (r : PairRow)
    (thr : ℚ) (ms : Nat) (hv : r.iden.isSome = true)
    (hmiss : mkIdx labels (pyStrip r.a) = none ∨ mkIdx labels (pyStrip r.b) = none) :
    (buildWithThr labels (pre ++ r :: post) thr ms).S =
      (buildWithThr labels (pre ++ post) thr ms).S ∧
    (buildWithThr labels (pre ++ r :: post) thr ms).missA +
        (buildWithThr labels (pre ++ r :: post) thr ms).missB =
      ((buildWithThr labels (pre ++ post) thr ms).missA +
        (buildWithThr labels (pre ++ post) thr ms).missB) + 1 ∧
    (buildWithThr labels (pre ++ r :: post) thr ms).total =
      (buildWithThr labels (pre ++ post) thr ms).total + 1 := by
  obtain ⟨v, hv'⟩ := Option.isSome_iff_exists.mp hv
  have hfix : ∀ S : Nat → Nat → Bool, fillS (mkIdx labels) ms thr S r = S := by
    intro S
    rcases hmiss with ha | hb
    · simp [fillS, hv', ha]
    · cases ha : mkIdx labels (pyStrip r.a) with
      | none => simp [fillS, hv', ha]
      | some ia => simp [fillS, hv', ha, hb]
  have hskip : (if rowSkipA (mkIdx labels) r then 1 else 0) +
      (if rowSkipB (mkIdx labels) r then 1 else 0) = 1 := by
    rcases hmiss with ha | hb
    · simp [rowSkipA, rowSkipB, hv', ha]
    · cases ha : mkIdx labels (pyStrip r.a) with
      | none => simp [rowSkipA, rowSkipB, hv', ha]
      | some ia => simp [rowSkipA, rowSkipB, hv', ha, hb]
  unfold buildWithThr
  simp only [foldl_fillStep]
  refine ⟨?_, ?_, ?_⟩
  · have hS : (pre ++ r :: post).foldl (fillS (mkIdx labels) ms thr)
        (fun i j => decide (i = j) && decide (i < labels.length)) =
      (pre ++ post).foldl (fillS (mkIdx labels) ms thr)
        (fun i j => decide (i = j) && decide (i < labels.length)) := by
      rw [List.foldl_append, List.foldl_append, List.foldl_cons, hfix]
    rw [hS]
  · have hA : ((pre ++ r :: post).filter (rowSkipA (mkIdx labels))).length +
        ((pre ++ r :: post).filter (rowSkipB (mkIdx labels))).length =
      (((pre ++ post).filter (rowSkipA (mkIdx labels))).length +
        ((pre ++ post).filter (rowSkipB (mkIdx labels))).length) + 1 := by
      simp only [List.filter_append, List.filter_cons, List.length_append]
      by_cases hA : rowSkipA (mkIdx labels) r <;> by_cases hB : rowSkipB (mkIdx labels) r <;>
        simp [hA, hB] at hskip ⊢ <;> omega
    simpa using hA
  · simp
    omega

/-- Witness for C9: a row whose first label is absent from the array. -/
theorem claim_C9_witness :
    (buildWithThr ["x"] ([] ++ ⟨"zz", "x", some 1⟩ :: []) (96/100) 0).S =
      (buildWithThr ["x"] ([] ++ []) (96/100) 0).S ∧
    (buildWithThr ["x"] ([] ++ ⟨"zz", "x", some 1⟩ :: []) (96/100) 0).missA +
        (buildWithThr ["x"] ([] ++ ⟨"zz", "x", some 1⟩ :: []) (96/100) 0).missB =
      ((buildWithThr ["x"] ([] ++ []) (96/100) 0).missA +
        (buildWithThr ["x"] ([] ++ []) (96/100) 0).missB) + 1 ∧
    (buildWithThr ["x"] ([] ++ ⟨"zz", "x", some 1⟩ :: []) (96/100) 0).total =
      (buildWithThr ["x"] ([] ++ []) (96/100) 0).total + 1 :=
  claim_C9 ["x"] [] [] ⟨"zz", "x", some 1⟩ (96/100) 0 rfl (Or.inl (by decide))

/-- The concrete single-label input of the C3 counterexample. -/
def c3rows : List PairRow := [⟨"m1", "m1", some (97/100)⟩]

/-- C3 counterexample: a single-label array (N = 1) with a parseable identity
table runs to completion — no `EmptyInputError`-class failure is raised; the
code never checks for "fewer than 2 labels", only for zero labels. -/
theorem claim_C3_counterexample :
    (["m1"] : List String).length = 1 ∧
    pipelineSim ["m1"] c3rows (96/100) .auto 0 =
      .ok (buildWithThr ["m1"] c3rows (96/100) 0) := by
  refine ⟨rfl, ?_⟩
  show build_similarity_from_pairs ["m1"] c3rows (96/100) .auto 0 = _
  have hmx : pairsIdentityMax c3rows = .ok (97/100) := by
    norm_num [pairsIdentityMax, c3rows]
  rw [build_similarity_from_pairs]
  have hsc : scaleUseFraction c3rows .auto = .ok true := by
    rw [scaleUseFraction, hmx]
    simp only [Except.map]
    rw [decide_eq_true (by norm_num : (97:ℚ)/100 ≤ 3/2)]
  rw [hsc]
  rfl

/-- C3 (amended): the pipeline prefix fails on an empty label array (zero
labels), and for a single-label array (N = 1) it proceeds and returns a result
whenever the scale decision itself succeeds. -/
theorem claim_C3 :
    (∀ (rows : List PairRow) (t : ℚ) (sc : Scale) (ms : Nat),
      pipelineSim [] rows t sc ms = .error "Empty FASTA") ∧
    (∀ (lab : String) (rows : List PairRow) (t : ℚ) (sc : Scale) (ms : Nat) (uf : Bool),
      scaleUseFraction rows sc = .ok uf →
      pipelineSim [lab] rows t sc ms =
        .ok (buildWithThr [lab] rows (if uf then t else t * 100) ms)) := by
  constructor
  · intro rows t sc ms
    rfl
  · intro lab rows t sc ms uf huf
    show (build_similarity_from_pairs [lab] rows t sc ms : Except String BuildResult) = _
    rw [build_similarity_from_pairs, huf]
    rfl

/-- Witness for C3: the empty array fails, the one-label array succeeds. -/
theorem claim_C3_witness :
    pipelineSim [] c3rows (96/100) .fraction 0 = .error "Empty FASTA" ∧
    pipelineSim ["m1"] c3rows (96/100) .fraction 0 =
      .ok (buildWithThr ["m1"] c3rows (if true then 96/100 else 96/100 * 100) 0) :=
  ⟨claim_C3.1 c3rows (96/100) .fraction 0,
   claim_C3.2 "m1" c3rows (96/100) .fraction 0 true rfl⟩

/-! ## C4: the shift==1 stream fed from `find_hors` into `process_file`

`process_file` keeps the `shift == "1"` rows of the pairs table written by
`write_pairs`, parses `A_first = first_int(A_pos)` and `B_last = last_int(B_pos)`
and drops unparseable rows (`dropna`).  On a record with nonempty position
lists this extracts the head of `A_pos` and the last element of `B_pos`. -/

/-- `first_int`/`last_int` extraction of one written HOR record; `none` models
the `dropna` removal of a record whose position list is empty. -/
def toConsRec (h : HORRecord) : Option ConsRec :=
  match h.A_pos.head?, h.B_pos.getLast? with
  | some a, some b => some ⟨h.block_size, a, b⟩
  | _, _ => none

/-- The record stream `process_file` consumes when its input is the table
written from `find_hors` output: the shift==1 rows in emission order. -/
def d1ConsStream (arr : List String) (S : Nat → Nat → Bool) (minB maxB : Nat) :
    List ConsRec :=
  ((find_hors arr S minB maxB).filter fun h => h.shift == 1).filterMap toConsRec

/-- The run decomposition of the offset-`d` scan: the `(start, Lrun)` pairs in
the order the `while` loop discovers them. -/
def scanRunsAux (S : Nat → Nat → Bool) (d e : Nat) : Nat → Nat → List (Nat × Nat)
  | 0, _ => []
  | fuel + 1, i =>
    if i < e then
      if S i (i + d) then
        (i, runLen S d e i) :: scanRunsAux S d e fuel (i + runLen S d e i)
      else scanRunsAux S d e fuel (i + 1)
    else []

/-- The consolidator records of block size `L` within one offset-1 run `(s, l)`
(empty for `L = 0`, whose written position lists are empty and get dropped). -/
def phaseRecs (s l L : Nat) : List ConsRec :=
  if L = 0 then []
  else (List.range (l - L + 1)).map fun off => ⟨L, s + off + 1, s + off + L + 1⟩

/-- The consolidator records produced by one offset-1 run `(s, l)` after the
shift filter and the `first_int`/`last_int` parse. -/
def runRecs (minB maxB s l : Nat) : List ConsRec :=
  (List.range' minB (min l maxB + 1 - minB)).flatMap (phaseRecs s l)

/-- The property C4 asserts of the emitted segment list: segments appear in
strictly increasing position order with disjoint `[mono_start, mono_end]`
ranges, each of which is itself well-formed. -/
def SegsOrdered (segs : List Segment) : Prop :=
  segs.Pairwise (fun u v => u.monoEnd < v.monoStart) ∧
    ∀ sg ∈ segs, sg.monoStart ≤ sg.monoEnd

/-- C4 counterexample: on an arbitrary record stream the consolidator's output
need be neither chronological nor non-overlapping — a stream whose positions
jump backwards yields a first segment `[10, 2]` (start after end) followed by a
second segment starting at 1. -/
theorem claim_C4_counterexample :
    ¬ SegsOrdered (consolidate [⟨3, 10, 13⟩, ⟨5, 1, 2⟩, ⟨3, 1, 4⟩]) := by
  intro h
  have h1 : (consolidate [⟨3, 10, 13⟩, ⟨5, 1, 2⟩, ⟨3, 1, 4⟩]) =
      [⟨10, 2, -7, 5⟩, ⟨1, 4, 4, 3⟩] := by decide
  have h2 := h.2 ⟨10, 2, -7, 5⟩ (by rw [h1]; exact List.mem_cons_self _ _)
  simp at h2

/-- The run counter stays inside `[i, e]` and stops only at `e` or at a false
entry (given enough fuel, which every call site provides). -/
theorem runLenAux_spec (S : Nat → Nat → Bool) (d e : Nat) :
    ∀ (fuel i : Nat), i ≤ e → e ≤ i + fuel →
      i + runLenAux S d e fuel i ≤ e ∧
      (i + runLenAux S d e fuel i < e →
        S (i + runLenAux S d e fuel i) (i + runLenAux S d e fuel i + d) = false) := by
  intro fuel
  induction fuel with
  | zero =>
    intro i hi hf
    have : i = e := by omega
    simp [runLenAux, this]
  | succ fuel ih =>
    intro i hi hf
    by_cases hc : i < e ∧ S i (i + d)
    · have hL : runLenAux S d e (fuel + 1) i = runLenAux S d e fuel (i + 1) + 1 := by
        simp [runLenAux, hc]
      obtain ⟨h1, h2⟩ := ih (i + 1) (by omega) (by omega)
      constructor
      · omega
      · intro hlt
        have he : i + runLenAux S d e (fuel + 1) i = i + 1 + runLenAux S d e fuel (i + 1) := by
          omega
        rw [he] at hlt ⊢
        exact h2 hlt
    · have hL : runLenAux S d e (fuel + 1) i = 0 := by
        simp only [runLenAux, if_neg hc]
      rw [hL]
      refine ⟨by omega, fun hlt => ?_⟩
      have hlt' : i < e := by omega
      cases hSb : S i (i + d) with
      | false => simpa using hSb
      | true => exact absurd ⟨hlt', hSb⟩ hc

theorem runLen_le (S : Nat → Nat → Bool) (d e i : Nat) (hi : i ≤ e) :
    i + runLen S d e i ≤ e :=
  (runLenAux_spec S d e (e - i) i hi (by omega)).1

theorem runLen_stop (S : Nat → Nat → Bool) (d e i : Nat) (hi : i ≤ e)
    (hlt : i + runLen S d e i < e) :
    S (i + runLen S d e i) (i + runLen S d e i + d) = false :=
  (runLenAux_spec S d e (e - i) i hi (by omega)).2 hlt

theorem runLen_pos (S : Nat → Nat → Bool) (d e i : Nat) (hi : i < e)
    (hS : S i (i + d) = true) : 1 ≤ runLen S d e i := by
  have he : e - i = (e - i - 1) + 1 := by omega
  rw [runLen, he]
  simp [runLenAux, hi, hS]

/-- Every discovered run starts at or after the scan position, inside the
diagonal, on a true entry, and its length is the run length computed there. -/
theorem mem_scanRunsAux (S : Nat → Nat → Bool) (d e : Nat) :
    ∀ (fuel i : Nat) (p : Nat × Nat), p ∈ scanRunsAux S d e fuel i →
      i ≤ p.1 ∧ p.1 < e ∧ S p.1 (p.1 + d) = true ∧ p.2 = runLen S d e p.1 := by
  intro fuel
  induction fuel with
  | zero => intro i p hp; simp [scanRunsAux] at hp
  | succ fuel ih =>
    intro i p hp
    unfold scanRunsAux at hp
    by_cases h1 : i < e
    · rw [if_pos h1] at hp
      by_cases h2 : S i (i + d)
      · rw [if_pos h2] at hp
        rcases List.mem_cons.mp hp with hp | hp
        · subst hp; exact ⟨Nat.le_refl _, h1, h2, rfl⟩
        · obtain ⟨ha, hb, hc, hd⟩ := ih _ p hp
          exact ⟨by omega, hb, hc, hd⟩
      · rw [if_neg h2] at hp
        obtain ⟨ha, hb, hc, hd⟩ := ih _ p hp
        exact ⟨by omega, hb, hc, hd⟩
    · rw [if_neg h1] at hp
      simp at hp

/-- Consecutive runs are separated by at least one false diagonal entry. -/
theorem chain_scanRunsAux (S : Nat → Nat → Bool) (d e : Nat) :
    ∀ (fuel i : Nat), i ≤ e →
      List.Chain' (fun p q : Nat × Nat => p.1 + p.2 + 1 ≤ q.1) (scanRunsAux S d e fuel i) := by
  intro fuel
  induction fuel with
  | zero => intro i _; simp [scanRunsAux]
  | succ fuel ih =>
    intro i hi
    unfold scanRunsAux
    by_cases h1 : i < e
    · rw [if_pos h1]
      by_cases h2 : S i (i + d)
      · rw [if_pos h2]
        have hle : i + runLen S d e i ≤ e := runLen_le S d e i hi
        refine List.chain'_cons'.mpr ⟨?_, ih _ hle⟩
        intro q hq
        cases hrest : scanRunsAux S d e fuel (i + runLen S d e i) with
        | nil => rw [hrest] at hq; simp at hq
        | cons q0 t =>
          rw [hrest] at hq
          simp only [List.head?_cons, Option.mem_def, Option.some.injEq] at hq
          subst hq
          have hq0 := mem_scanRunsAux S d e fuel _ q0 (by rw [hrest]; exact List.mem_cons_self _ _)
          rcases Nat.lt_or_ge (i + runLen S d e i) q0.1 with h | h
          · omega
          · have heq : q0.1 = i + runLen S d e i := by omega
            have hlt : i + runLen S d e i < e := by rw [← heq]; exact hq0.2.1
            have := runLen_stop S d e i hi hlt
            rw [← heq] at this
            rw [hq0.2.2.1] at this
            exact absurd this (by simp)
      · rw [if_neg h2]
        exact ih _ (by omega)
    · rw [if_neg h1]
      simp

/-- The scan's record list is exactly the concatenated run emissions. -/
theorem scanAux_eq (arr : List String) (S : Nat → Nat → Bool) (d e minB maxB : Nat) :
    ∀ (fuel i : Nat), scanAux arr S d e minB maxB fuel i =
      (scanRunsAux S d e fuel i).flatMap fun p => emitRun arr d minB maxB p.1 p.2 := by
  intro fuel
  induction fuel with
  | zero => intro i; simp [scanAux, scanRunsAux]
  | succ fuel ih =>
    intro i
    unfold scanAux scanRunsAux
    by_cases h1 : i < e
    · rw [if_pos h1, if_pos h1]
      by_cases h2 : S i (i + d)
      · rw [if_pos h2, if_pos h2, List.flatMap_cons, ih]
      · rw [if_neg h2, if_neg h2, ih]
    · rw [if_neg h1, if_neg h1]
      simp

/-- Every record of the offset-`d` scan carries `shift = d`. -/
theorem shift_scanOffset {arr : List String} {S : Nat → Nat → Bool} {d e minB maxB : Nat}
    {h : HORRecord} (hm : h ∈ scanOffset arr S d e minB maxB) : h.shift = d := by
  obtain ⟨s, hs⟩ := mem_scanAux hm
  exact (mem_emitRun hs).2.2.2.2.2.1

/-- Filtering `find_hors` output to `shift == 1` retains exactly the offset-1
scan, in its emission order. -/
theorem d1_filter (arr : List String) (S : Nat → Nat → Bool) (minB maxB : Nat) :
    (find_hors arr S minB maxB).filter (fun h => h.shift == 1) =
      scanOffset arr S 1 (arr.length - 1) minB maxB := by
  unfold find_hors
  cases hN : arr.length - 1 with
  | zero => rfl
  | succ k =>
    rw [show List.range' 1 (k + 1) = 1 :: List.range' 2 k from rfl, List.flatMap_cons,
      List.filter_append]
    have h1 : (scanOffset arr S 1 (arr.length - 1) minB maxB).filter
        (fun h => h.shift == 1) = scanOffset arr S 1 (arr.length - 1) minB maxB := by
      rw [List.filter_eq_self]
      intro a ha
      simp [shift_scanOffset ha]
    have h2 : ((List.range' 2 k).flatMap fun d =>
        scanOffset arr S d (arr.length - d) minB maxB).filter (fun h => h.shift == 1) = [] := by
      rw [List.filter_eq_nil]
      intro a ha
      obtain ⟨d, hd, ha⟩ := List.mem_flatMap.mp ha
      have hd2 : 2 ≤ d := (List.mem_range'_1.mp hd).1
      have := shift_scanOffset ha
      simp [this]
      omega
    rw [h1, h2, List.append_nil, hN]

/-- `filterMap` distributes over `flatMap`. -/
theorem filterMap_flatMap_eq {α β γ : Type} (l : List α) (g : α → List β) (f : β → Option γ) :
    (l.flatMap g).filterMap f = l.flatMap fun a => (g a).filterMap f := by
  induction l with
  | nil => rfl
  | cons a l ih => simp [List.filterMap_append, ih]

/-- `first_int`/`last_int` on a record with nonempty position lists. -/
theorem toConsRec_range' (bs sh a0 b0 x y K : Nat) (A B : List String) :
    toConsRec ⟨bs, sh, a0, b0, List.range' x (K + 1), List.range' y (K + 1), A, B⟩ =
      some ⟨bs, x, y + K⟩ := by
  have hhead : (List.range' x (K + 1)).head? = some x := rfl
  have hlast : (List.range' y (K + 1)).getLast? = some (y + K) := by
    rw [List.range'_concat, List.getLast?_concat]
    simp
  simp only [toConsRec, hhead, hlast]

/-- The `first_int`/`last_int` parse of one offset-1 run's emissions. -/
theorem emitRun_filterMap (arr : List String) (minB maxB s l : Nat) :
    (emitRun arr 1 minB maxB s l).filterMap toConsRec = runRecs minB maxB s l := by
  unfold emitRun runRecs phaseRecs
  rw [filterMap_flatMap_eq]
  refine List.flatMap_congr fun L hL => ?_
  rw [List.filterMap_map]
  cases L with
  | zero =>
    rw [if_pos rfl, List.filterMap_eq_nil]
    intro a _
    rfl
  | succ K =>
    rw [if_neg (Nat.succ_ne_zero K)]
    have hfun : ∀ off ∈ List.range (l - (K + 1) + 1), (toConsRec ∘ fun off =>
        (⟨K + 1, 1, s + off, s + off + 1, List.range' (s + off + 1) (K + 1),
          List.range' (s + off + 1 + 1) (K + 1),
          (List.range' (s + off + 1) (K + 1)).map fun x => arr.getD (x - 1) "",
          (List.range' (s + off + 1 + 1) (K + 1)).map fun x => arr.getD (x - 1) ""⟩
          : HORRecord)) off =
        (some ∘ fun off => (⟨K + 1, s + off + 1, s + off + (K + 1) + 1⟩ : ConsRec)) off := by
      intro off _
      have h1 := toConsRec_range' (K + 1) 1 (s + off) (s + off + 1) (s + off + 1)
        (s + off + 1 + 1) K
        ((List.range' (s + off + 1) (K + 1)).map fun x => arr.getD (x - 1) "")
        ((List.range' (s + off + 1 + 1) (K + 1)).map fun x => arr.getD (x - 1) "")
      simp only [Function.comp_apply, h1]
      have : s + off + 1 + 1 + K = s + off + (K + 1) + 1 := by omega
      rw [this]
    rw [List.filterMap_congr hfun, List.filterMap_eq_map]

/-- The consolidator's input stream, decomposed into the offset-1 runs. -/
theorem d1_stream_eq (arr : List String) (S : Nat → Nat → Bool) (minB maxB : Nat) :
    d1ConsStream arr S minB maxB =
      (scanRunsAux S 1 (arr.length - 1) (arr.length - 1) 0).flatMap
        fun p => runRecs minB maxB p.1 p.2 := by
  unfold d1ConsStream
  rw [d1_filter]
  unfold scanOffset
  rw [scanAux_eq, filterMap_flatMap_eq]
  exact List.flatMap_congr fun p _ => emitRun_filterMap arr minB maxB p.1 p.2

/-- Position bounds of one run's consolidator records. -/
theorem mem_runRecs {minB maxB s l : Nat} {r : ConsRec} (hr : r ∈ runRecs minB maxB s l) :
    1 ≤ r.bs ∧ r.bs ≤ l ∧ s + 1 ≤ r.aFirst ∧ r.aFirst < r.bLast ∧ r.bLast ≤ s + l + 1 := by
  unfold runRecs phaseRecs at hr
  obtain ⟨L, hL, hr⟩ := List.mem_flatMap.mp hr
  obtain ⟨hL1, hL2⟩ := List.mem_range'_1.mp hL
  have hmin : min l maxB ≤ l := Nat.min_le_left _ _
  by_cases h0 : L = 0
  · rw [if_pos h0] at hr
    simp at hr
  · rw [if_neg h0] at hr
    obtain ⟨off, hoff, rfl⟩ := List.mem_map.mp hr
    have hoff' := List.mem_range.mp hoff
    refine ⟨?_, ?_, ?_, ?_, ?_⟩
    · show 1 ≤ L
      omega
    · show L ≤ l
      omega
    · show s + 1 ≤ s + off + 1
      omega
    · show s + off + 1 < s + off + L + 1
      omega
    · show s + off + L + 1 ≤ s + l + 1
      omega

/-- The state invariant carried across the consolidator fold: while a segment
is open, its fields are ordered and bounded by the frontier `fr` (one past the
last position any processed record can have touched). -/
def StInv (fr : Nat) : Option SegState → Prop
  | none => True
  | some st => st.startA ≤ st.endBAtMax ∧ st.startA ≤ st.lastBOfStart ∧
      st.endBAtMax ≤ fr ∧ st.lastBOfStart ≤ fr ∧ 3 ≤ st.maxBs ∧
      (st.seenNon3 = false → st.maxBs = 3)

/-- The full fold invariant: emitted segments are ordered and disjoint, the
open segment (if any) satisfies `StInv`, every emitted segment ends before the
open segment's start, and nothing has been emitted before the first open. -/
def Inv (fr : Nat) (acc : List Segment × Option SegState) : Prop :=
  SegsOrdered acc.1 ∧ StInv fr acc.2 ∧
    (match acc.2 with
     | some st => ∀ sg ∈ acc.1, sg.monoEnd < st.startA
     | none => acc.1 = [])

theorem Inv_mono {fr fr' : Nat} (hle : fr ≤ fr') {acc : List Segment × Option SegState}
    (h : Inv fr acc) : Inv fr' acc := by
  obtain ⟨h1, h2, h3⟩ := h
  refine ⟨h1, ?_, h3⟩
  cases hst : acc.2 with
  | none => trivial
  | some st =>
    rw [hst] at h2
    obtain ⟨a, b, c, d, e, f⟩ := h2
    exact ⟨a, b, by omega, by omega, e, f⟩

/-- Records that are not `block_size 3` never open a segment. -/
theorem foldl_consStep_non3_none (rs : List ConsRec) (segs : List Segment)
    (hne : ∀ r ∈ rs, r.bs ≠ 3) :
    rs.foldl consStep (segs, none) = (segs, none) := by
  induction rs with
  | nil => rfl
  | cons r rs ih =>
    have hr : ¬ r.bs = 3 := hne r (List.mem_cons_self _ _)
    have hstep : consStep (segs, none) r = (segs, none) := by
      simp [consStep, hr]
    rw [List.foldl_cons, hstep, ih (fun x hx => hne x (List.mem_cons_of_mem _ hx))]

/-- Folding a batch of non-3 records over an open segment: the opening point
and the running 3-end never move, `seen_non3` latches, `max_bs` can only grow,
and the max-evidence end either stays or is one of the batch's B positions. -/
theorem foldl_consStep_non3 (rs : List ConsRec) (segs : List Segment) (st : SegState)
    (hne : ∀ r ∈ rs, r.bs ≠ 3) :
    ∃ st', rs.foldl consStep (segs, some st) = (segs, some st') ∧
      st'.startA = st.startA ∧ st'.lastBOfStart = st.lastBOfStart ∧
      st'.seenNon3 = (st.seenNon3 || !rs.isEmpty) ∧
      st.maxBs ≤ st'.maxBs ∧
      (st'.endBAtMax = st.endBAtMax ∨ ∃ r ∈ rs, st'.endBAtMax = r.bLast) ∧
      (rs = [] → st' = st) := by
  induction rs generalizing st with
  | nil => exact ⟨st, rfl, rfl, rfl, by simp, Nat.le_refl _, Or.inl rfl, fun _ => rfl⟩
  | cons r rs ih =>
    have hr : ¬ r.bs = 3 := hne r (List.mem_cons_self _ _)
    have hrest : ∀ x ∈ rs, x.bs ≠ 3 := fun x hx => hne x (List.mem_cons_of_mem _ hx)
    rcases Nat.lt_trichotomy st.maxBs r.bs with hcmp | hcmp | hcmp
    · have hstep : consStep (segs, some st) r =
          (segs, some ⟨true, st.startA, st.lastBOfStart, r.bs, r.bLast⟩) := by
        simp only [consStep]
        rw [if_neg hr, if_pos (hcmp : r.bs > st.maxBs)]
      rw [List.foldl_cons, hstep]
      obtain ⟨st', heq, h1, h2, h3, h4, h5, _⟩ := ih ⟨true, st.startA, st.lastBOfStart, r.bs, r.bLast⟩ hrest
      dsimp only at h1 h2 h3 h4 h5
      refine ⟨st', heq, h1, h2, by simp [h3], by omega, ?_, fun h => absurd h (List.cons_ne_nil _ _)⟩
      rcases h5 with h5 | ⟨x, hx, hx'⟩
      · exact Or.inr ⟨r, List.mem_cons_self _ _, h5⟩
      · exact Or.inr ⟨x, List.mem_cons_of_mem _ hx, hx'⟩
    · have hgt : ¬ r.bs > st.maxBs := by omega
      have hstep : consStep (segs, some st) r =
          (segs, some ⟨true, st.startA, st.lastBOfStart, st.maxBs, r.bLast⟩) := by
        simp only [consStep]
        rw [if_neg hr, if_neg hgt, if_pos hcmp.symm]
      rw [List.foldl_cons, hstep]
      obtain ⟨st', heq, h1, h2, h3, h4, h5, _⟩ := ih ⟨true, st.startA, st.lastBOfStart, st.maxBs, r.bLast⟩ hrest
      dsimp only at h1 h2 h3 h4 h5
      refine ⟨st', heq, h1, h2, by simp [h3], by omega, ?_, fun h => absurd h (List.cons_ne_nil _ _)⟩
      rcases h5 with h5 | ⟨x, hx, hx'⟩
      · exact Or.inr ⟨r, List.mem_cons_self _ _, h5⟩
      · exact Or.inr ⟨x, List.mem_cons_of_mem _ hx, hx'⟩
    · have hgt : ¬ r.bs > st.maxBs := by omega
      have heq' : ¬ r.bs = st.maxBs := by omega
      have hstep : consStep (segs, some st) r =
          (segs, some ⟨true, st.startA, st.lastBOfStart, st.maxBs, st.endBAtMax⟩) := by
        simp only [consStep]
        rw [if_neg hr, if_neg hgt, if_neg heq']
      rw [List.foldl_cons, hstep]
      obtain ⟨st', heq, h1, h2, h3, h4, h5, _⟩ := ih ⟨true, st.startA, st.lastBOfStart, st.maxBs, st.endBAtMax⟩ hrest
      dsimp only at h1 h2 h3 h4 h5
      refine ⟨st', heq, h1, h2, by simp [h3], by omega, ?_, fun h => absurd h (List.cons_ne_nil _ _)⟩
      rcases h5 with h5 | ⟨x, hx, hx'⟩
      · exact Or.inl h5
      · exact Or.inr ⟨x, List.mem_cons_of_mem _ hx, hx'⟩

/-- Folding one run's `block_size = 3` emissions (`off = 0 .. l-3`): whatever
the entry state, the fold ends inside a fresh-or-extended segment whose fields
are bounded by the run, with at most one segment (the pending one) emitted. -/
theorem fold_threeBlock (s l fr : Nat) (hl : 3 ≤ l) (segs : List Segment)
    (st? : Option SegState) (hInv : Inv fr (segs, st?)) (hfr : fr ≤ s) :
    ∃ segs' st',
      ((List.range (l - 2)).map fun off => (⟨3, s + off + 1, s + off + 4⟩ : ConsRec)).foldl
        consStep (segs, st?) = (segs', some st') ∧
      Inv (s + l + 1) (segs', some st') ∧
      st'.seenNon3 = false ∧ st'.maxBs = 3 ∧ st'.startA ≤ s + 1 := by
  obtain ⟨hSO, hStInv, hmatch⟩ := hInv
  have hsplit : ((List.range (l - 2)).map fun off => (⟨3, s + off + 1, s + off + 4⟩ : ConsRec)) =
      (⟨3, s + 1, s + 4⟩ : ConsRec) ::
        ((List.range (l - 3)).map fun off => (⟨3, s + off + 2, s + off + 5⟩ : ConsRec)) := by
    rw [show l - 2 = (l - 3) + 1 from by omega, List.range_succ_eq_map, List.map_cons,
      List.map_map]
    rfl
  have htail3 : ∀ r ∈ (List.range (l - 3)).map
      fun off => (⟨3, s + off + 2, s + off + 5⟩ : ConsRec), r.bs = 3 := by
    intro r hr
    obtain ⟨off, _, rfl⟩ := List.mem_map.mp hr
    rfl
  have htailb : ∀ r ∈ (List.range (l - 3)).map
      fun off => (⟨3, s + off + 2, s + off + 5⟩ : ConsRec),
      s + 4 ≤ r.bLast ∧ r.bLast ≤ s + l + 1 := by
    intro r hr
    obtain ⟨off, hoff, rfl⟩ := List.mem_map.mp hr
    have hofflt := List.mem_range.mp hoff
    constructor
    · show s + 4 ≤ s + off + 5
      omega
    · show s + off + 5 ≤ s + l + 1
      omega
  rw [hsplit, List.foldl_cons]
  cases st? with
  | none =>
    have hsegs : segs = [] := hmatch
    have hstep : consStep (segs, none) ⟨3, s + 1, s + 4⟩ =
        (segs, some (openSeg (s + 1) (s + 4))) := by
      simp [consStep]
    rw [hstep]
    obtain ⟨st', heq, hseen, hstart, hmax, hend, hlast⟩ :=
      foldl_consStep_threes _ segs (openSeg (s + 1) (s + 4)) htail3 rfl
    have hstart' : st'.startA = s + 1 := hstart
    have hend' : st'.endBAtMax = s + 4 := hend
    have hmax' : st'.maxBs = 3 := hmax
    have hlast' : s + 4 ≤ st'.lastBOfStart ∧ st'.lastBOfStart ≤ s + l + 1 := by
      rcases hlast with h | ⟨r, hr, h⟩
      · have h' : st'.lastBOfStart = s + 4 := h
        omega
      · have := htailb r hr
        omega
    rw [heq]
    refine ⟨segs, st', rfl, ⟨hSO, ?_, ?_⟩, hseen, hmax', by omega⟩
    · exact ⟨by omega, by omega, by omega, by omega, by omega, fun _ => hmax'⟩
    · rw [hsegs]
      intro sg hsg
      simp at hsg
  | some st =>
    obtain ⟨hsa_eb, hsa_lb, heb_fr, hlb_fr, hmb3, hseen_mb⟩ := hStInv
    cases hseen : st.seenNon3 with
    | false =>
      have hstep : consStep (segs, some st) ⟨3, s + 1, s + 4⟩ =
          (segs, some { st with lastBOfStart := s + 4 }) := by
        simp [consStep, hseen]
      rw [hstep]
      obtain ⟨st', heq, hseen', hstart, hmax, hend, hlast⟩ :=
        foldl_consStep_threes _ segs { st with lastBOfStart := s + 4 } htail3 (by simp [hseen])
      have hstart' : st'.startA = st.startA := hstart
      have hend' : st'.endBAtMax = st.endBAtMax := hend
      have hmax' : st'.maxBs = st.maxBs := hmax
      have hmb : st'.maxBs = 3 := by rw [hmax']; exact hseen_mb hseen
      have hlast' : s + 4 ≤ st'.lastBOfStart ∧ st'.lastBOfStart ≤ s + l + 1 := by
        rcases hlast with h | ⟨r, hr, h⟩
        · have h' : st'.lastBOfStart = s + 4 := h
          omega
        · have := htailb r hr
          omega
      rw [heq]
      refine ⟨segs, st', rfl, ⟨hSO, ?_, ?_⟩, hseen', hmb, by omega⟩
      · exact ⟨by omega, by omega, by omega, by omega, by omega, fun _ => hmb⟩
      · intro sg hsg
        rw [hstart']
        exact hmatch sg hsg
    | true =>
      have hstep : consStep (segs, some st) ⟨3, s + 1, s + 4⟩ =
          (segs ++ [closeSeg st], some (openSeg (s + 1) (s + 4))) := by
        simp [consStep, hseen]
      rw [hstep]
      obtain ⟨st', heq, hseen', hstart, hmax, hend, hlast⟩ :=
        foldl_consStep_threes _ (segs ++ [closeSeg st]) (openSeg (s + 1) (s + 4)) htail3 rfl
      have hstart' : st'.startA = s + 1 := hstart
      have hend' : st'.endBAtMax = s + 4 := hend
      have hmax' : st'.maxBs = 3 := hmax
      have hlast' : s + 4 ≤ st'.lastBOfStart ∧ st'.lastBOfStart ≤ s + l + 1 := by
        rcases hlast with h | ⟨r, hr, h⟩
        · have h' : st'.lastBOfStart = s + 4 := h
          omega
        · have := htailb r hr
          omega
      have hclose_end : (closeSeg st).monoEnd = st.endBAtMax := rfl
      have hclose_start : (closeSeg st).monoStart = st.startA := rfl
      rw [heq]
      refine ⟨segs ++ [closeSeg st], st', rfl, ⟨⟨?_, ?_⟩, ?_, ?_⟩, hseen', hmax', by omega⟩
      · rw [List.pairwise_append]
        refine ⟨hSO.1, by simp, ?_⟩
        intro a ha b hb
        have hb' : b = closeSeg st := by simpa using hb
        rw [hb', hclose_start]
        exact hmatch a ha
      · intro sg hsg
        rcases List.mem_append.mp hsg with h | h
        · exact hSO.2 sg h
        · have h' : sg = closeSeg st := by simpa using h
          rw [h', hclose_start, hclose_end]
          omega
      · exact ⟨by omega, by omega, by omega, by omega, by omega, fun _ => hmax'⟩
      · intro sg hsg
        rw [hstart']
        rcases List.mem_append.mp hsg with h | h
        · have := hmatch sg h
          omega
        · have h' : sg = closeSeg st := by simpa using h
          rw [h', hclose_end]
          omega

/-- Block-size bounds for one run's consolidator records. -/
theorem mem_runRecs_bs {minB maxB s l : Nat} {r : ConsRec} (hr : r ∈ runRecs minB maxB s l) :
    minB ≤ r.bs ∧ r.bs ≤ min l maxB := by
  unfold runRecs phaseRecs at hr
  obtain ⟨L, hL, hr⟩ := List.mem_flatMap.mp hr
  obtain ⟨hL1, hL2⟩ := List.mem_range'_1.mp hL
  by_cases h0 : L = 0
  · rw [if_pos h0] at hr
    simp at hr
  · rw [if_neg h0] at hr
    obtain ⟨off, _, rfl⟩ := List.mem_map.mp hr
    constructor
    · show minB ≤ L
      omega
    · show L ≤ min l maxB
      omega

/-- Field bounds for the records of one block-size phase. -/
theorem mem_phaseRecs {s l L : Nat} {r : ConsRec} (hr : r ∈ phaseRecs s l L) (hLl : L ≤ l) :
    r.bs = L ∧ 1 ≤ L ∧ s + 1 ≤ r.aFirst ∧ r.aFirst < r.bLast ∧ r.bLast ≤ s + l + 1 := by
  unfold phaseRecs at hr
  by_cases h0 : L = 0
  · rw [if_pos h0] at hr
    simp at hr
  · rw [if_neg h0] at hr
    obtain ⟨off, hoff, rfl⟩ := List.mem_map.mp hr
    have hofflt := List.mem_range.mp hoff
    refine ⟨rfl, by omega, ?_, ?_, ?_⟩
    · show s + 1 ≤ s + off + 1
      omega
    · show s + off + 1 < s + off + L + 1
      omega
    · show s + off + L + 1 ≤ s + l + 1
      omega

/-- Folding a batch of `block_size < 3` records preserves the invariant at the
same frontier (only `seen_non3` can change). -/
theorem fold_small_inv (rs : List ConsRec) (segs : List Segment) (st? : Option SegState)
    (fr : Nat) (hlt : ∀ r ∈ rs, r.bs < 3) (hInv : Inv fr (segs, st?)) :
    Inv fr (rs.foldl consStep (segs, st?)) := by
  cases st? with
  | none =>
    rw [foldl_consStep_non3_none rs segs (fun r hr => by have := hlt r hr; omega)]
    exact hInv
  | some st =>
    obtain ⟨hSO, hSt, hmatch⟩ := hInv
    obtain ⟨h1, h2, h3, h4, h5, h6⟩ := hSt
    rw [foldl_consStep_small rs segs st hlt h5]
    refine ⟨hSO, ⟨h1, h2, h3, h4, h5, ?_⟩, ?_⟩
    · intro hs
      have hs' : (st.seenNon3 || !rs.isEmpty) = false := hs
      exact h6 (Bool.or_eq_false_iff.mp hs').1
    · exact hmatch

/-- Folding a batch of non-3 records whose positions all lie strictly beyond
the current frontier moves the invariant to any frontier covering the batch. -/
theorem fold_non3_inv (rs : List ConsRec) (segs : List Segment) (st? : Option SegState)
    (fr fr' : Nat) (hne : ∀ r ∈ rs, r.bs ≠ 3)
    (hb : ∀ r ∈ rs, fr < r.aFirst ∧ r.aFirst < r.bLast ∧ r.bLast ≤ fr')
    (hfr : fr ≤ fr') (hInv : Inv fr (segs, st?)) :
    Inv fr' (rs.foldl consStep (segs, st?)) := by
  cases st? with
  | none =>
    rw [foldl_consStep_non3_none rs segs hne]
    exact Inv_mono hfr hInv
  | some st =>
    obtain ⟨hSO, hSt, hmatch⟩ := hInv
    obtain ⟨h1, h2, h3, h4, h5, h6⟩ := hSt
    obtain ⟨st', heq, hA, hL, hS, hM, hE, hNil⟩ := foldl_consStep_non3 rs segs st hne
    rw [heq]
    refine ⟨hSO, ⟨?_, ?_, ?_, ?_, ?_, ?_⟩, ?_⟩
    · rcases hE with hE | ⟨r, hr, hE⟩
      · rw [hA, hE]
        exact h1
      · rw [hA, hE]
        obtain ⟨hb1, hb2, hb3⟩ := hb r hr
        omega
    · rw [hA, hL]
      exact h2
    · rcases hE with hE | ⟨r, hr, hE⟩
      · rw [hE]
        omega
      · rw [hE]
        exact (hb r hr).2.2
    · rw [hL]
      omega
    · omega
    · intro hs
      rw [hS] at hs
      have hbool := Bool.or_eq_false_iff.mp hs
      have hrs : rs = [] := by
        have hb2 := hbool.2
        cases rs with
        | nil => rfl
        | cons a t => simp at hb2
      rw [hNil hrs]
      exact h6 hbool.1
    · intro sg hsg
      rw [hA]
      exact hmatch sg hsg

/-- The main per-run step: processing one offset-1 run's records carries the
invariant from any frontier at or before the run start to one past its end. -/
theorem fold_runRecs (minB maxB s l fr : Nat) (acc : List Segment × Option SegState)
    (hInv : Inv fr acc) (hfr : fr ≤ s) :
    Inv (s + l + 1) ((runRecs minB maxB s l).foldl consStep acc) := by
  obtain ⟨segs, st?⟩ := acc
  by_cases h3 : minB ≤ 3 ∧ 3 ≤ min l maxB
  · obtain ⟨hminB, hmaxL⟩ := h3
    have hl3 : 3 ≤ l := le_trans hmaxL (Nat.min_le_left _ _)
    have hrange : List.range' minB (min l maxB + 1 - minB) =
        List.range' minB (3 - minB) ++ 3 :: List.range' 4 (min l maxB - 3) := by
      have happ := List.range'_append minB (3 - minB) (min l maxB - 2) 1
      rw [show minB + 1 * (3 - minB) = 3 from by omega] at happ
      rw [show min l maxB - 2 + (3 - minB) = min l maxB + 1 - minB from by omega] at happ
      rw [← happ, show min l maxB - 2 = (min l maxB - 3) + 1 from by omega]
      rfl
    have hrun : runRecs minB maxB s l =
        ((List.range' minB (3 - minB)).flatMap (phaseRecs s l)) ++
          (phaseRecs s l 3 ++ (List.range' 4 (min l maxB - 3)).flatMap (phaseRecs s l)) := by
      unfold runRecs
      rw [hrange, List.flatMap_append, List.flatMap_cons]
    rw [hrun, List.foldl_append, List.foldl_append]
    have hlow : ∀ r ∈ (List.range' minB (3 - minB)).flatMap (phaseRecs s l), r.bs < 3 := by
      intro r hr
      obtain ⟨L, hL, hr⟩ := List.mem_flatMap.mp hr
      obtain ⟨hL1, hL2⟩ := List.mem_range'_1.mp hL
      have := (mem_phaseRecs hr (by omega)).1
      omega
    have hInv1 := fold_small_inv _ segs st? fr hlow hInv
    rcases hp1 : ((List.range' minB (3 - minB)).flatMap (phaseRecs s l)).foldl
      consStep (segs, st?) with ⟨segs1, st1?⟩
    rw [hp1] at hInv1
    have h3eq : phaseRecs s l 3 = (List.range (l - 2)).map fun off =>
        (⟨3, s + off + 1, s + off + 4⟩ : ConsRec) := by
      unfold phaseRecs
      rw [if_neg (by omega : ¬ (3 : Nat) = 0), show l - 3 + 1 = l - 2 from by omega]
    obtain ⟨segs2, st2, heq2, hInv2, hseen2, hmax2, hstart2⟩ :=
      fold_threeBlock s l fr hl3 segs1 st1? hInv1 hfr
    rw [h3eq, heq2]
    have hhigh : ∀ r ∈ (List.range' 4 (min l maxB - 3)).flatMap (phaseRecs s l),
        r.bs ≠ 3 ∧ s + 1 ≤ r.aFirst ∧ r.aFirst < r.bLast ∧ r.bLast ≤ s + l + 1 := by
      intro r hr
      obtain ⟨L, hL, hr⟩ := List.mem_flatMap.mp hr
      obtain ⟨hL1, hL2⟩ := List.mem_range'_1.mp hL
      obtain ⟨hbs, _, ha, hab, hbb⟩ := mem_phaseRecs hr (by omega)
      exact ⟨by omega, ha, hab, hbb⟩
    obtain ⟨hSO2, hSt2, hmatch2⟩ := hInv2
    obtain ⟨k1, k2, k3, k4, k5, k6⟩ := hSt2
    obtain ⟨st3, heq3, hA3, hL3, hS3, hM3, hE3, hNil3⟩ :=
      foldl_consStep_non3 _ segs2 st2 (fun r hr => (hhigh r hr).1)
    rw [heq3]
    refine ⟨hSO2, ⟨?_, ?_, ?_, ?_, ?_, ?_⟩, ?_⟩
    · rcases hE3 with hE | ⟨r, hr, hE⟩
      · rw [hA3, hE]
        exact k1
      · rw [hA3, hE]
        obtain ⟨_, hb1, hb2, hb3⟩ := hhigh r hr
        omega
    · rw [hA3, hL3]
      exact k2
    · rcases hE3 with hE | ⟨r, hr, hE⟩
      · rw [hE]
        exact k3
      · rw [hE]
        exact (hhigh r hr).2.2.2
    · rw [hL3]
      exact k4
    · omega
    · intro hs
      rw [hS3] at hs
      have hbool := Bool.or_eq_false_iff.mp hs
      have hrs : (List.range' 4 (min l maxB - 3)).flatMap (phaseRecs s l) = [] := by
        have hb2 := hbool.2
        cases hc : (List.range' 4 (min l maxB - 3)).flatMap (phaseRecs s l) with
        | nil => rfl
        | cons a t =>
          rw [hc] at hb2
          simp at hb2
      rw [hNil3 hrs, hmax2]
    · intro sg hsg
      rw [hA3]
      exact hmatch2 sg hsg
  · have hne : ∀ r ∈ runRecs minB maxB s l, r.bs ≠ 3 := by
      intro r hr
      have hbs := mem_runRecs_bs hr
      omega
    exact fold_non3_inv _ segs st? fr (s + l + 1) hne
      (fun r hr => by
        obtain ⟨_, _, ha, hab, hbb⟩ := mem_runRecs hr
        exact ⟨by omega, hab, hbb⟩)
      (by omega) hInv

/-- With positive lengths, the separation relation propagates from the head of
a chain to every later element. -/
theorem chain_starts (p : Nat × Nat) :
    ∀ rs : List (Nat × Nat), List.Chain' (fun u v => u.1 + u.2 + 1 ≤ v.1) (p :: rs) →
      (∀ q ∈ rs, 1 ≤ q.2) → ∀ q ∈ rs, p.1 + p.2 + 1 ≤ q.1 := by
  intro rs
  induction rs generalizing p with
  | nil =>
    intro _ _ q hq
    simp at hq
  | cons q rs ih =>
    intro hchain hpos x hx
    have h1 : p.1 + p.2 + 1 ≤ q.1 := (List.chain'_cons'.mp hchain).1 q rfl
    rcases List.mem_cons.mp hx with rfl | hx
    · exact h1
    · have h2 := ih q ((List.chain'_cons'.mp hchain).2)
        (fun y hy => hpos y (List.mem_cons_of_mem _ hy)) x hx
      have hq2 : 1 ≤ q.2 := hpos q (List.mem_cons_self _ _)
      omega

/-- The full scan: processing every run in order keeps the invariant. -/
theorem fold_runs (minB maxB : Nat) :
    ∀ (runs : List (Nat × Nat)) (acc : List Segment × Option SegState) (fr : Nat),
      Inv fr acc → List.Chain' (fun p q => p.1 + p.2 + 1 ≤ q.1) runs →
      (∀ p ∈ runs, 1 ≤ p.2) → (∀ p ∈ runs, fr ≤ p.1) →
      ∃ fr', Inv fr' ((runs.flatMap fun p => runRecs minB maxB p.1 p.2).foldl consStep acc) := by
  intro runs
  induction runs with
  | nil =>
    intro acc fr hInv _ _ _
    exact ⟨fr, by simpa using hInv⟩
  | cons p rs ih =>
    intro acc fr hInv hchain hpos hge
    rw [List.flatMap_cons, List.foldl_append]
    have hInv1 := fold_runRecs minB maxB p.1 p.2 fr acc hInv (hge p (List.mem_cons_self _ _))
    have hchain' := (List.chain'_cons'.mp hchain).2
    have hsep : ∀ q ∈ rs, p.1 + p.2 + 1 ≤ q.1 :=
      chain_starts p rs hchain (fun q hq => hpos q (List.mem_cons_of_mem _ hq))
    exact ih _ (p.1 + p.2 + 1) hInv1 hchain'
      (fun q hq => hpos q (List.mem_cons_of_mem _ hq)) hsep

/-- Flushing the final open segment preserves order and disjointness. -/
theorem finalize_ok (fr : Nat) (acc : List Segment × Option SegState) (hInv : Inv fr acc) :
    SegsOrdered (finalize acc) := by
  obtain ⟨segs, st?⟩ := acc
  cases st? with
  | none => exact hInv.1
  | some st =>
    obtain ⟨hSO, hSt, hmatch⟩ := hInv
    obtain ⟨h1, h2, h3, h4, h5, h6⟩ := hSt
    show SegsOrdered (segs ++ [_])
    constructor
    · rw [List.pairwise_append]
      refine ⟨hSO.1, by simp, ?_⟩
      intro a ha b hb
      have hb' := List.mem_singleton.mp hb
      rw [hb']
      show a.monoEnd < st.startA
      exact hmatch a ha
    · intro sg hsg
      rcases List.mem_append.mp hsg with h | h
      · exact hSO.2 sg h
      · have h' := List.mem_singleton.mp h
        rw [h']
        show st.startA ≤ (if st.seenNon3 then st.endBAtMax else st.lastBOfStart)
        split_ifs
        · exact h1
        · exact h2

/-- C4 (amended): while an arbitrary record stream can produce overlapping or
out-of-order segments, the stream the consolidator actually receives — the
shift==1 subset of `find_hors` output in emission order — always yields
segments with well-formed, pairwise disjoint `[mono_start, mono_end]` ranges,
emitted in strictly increasing position order; this holds for every relation
and every block-size configuration. -/
theorem claim_C4 (arr : List String) (S : Nat → Nat → Bool) (minB maxB : Nat) :
    SegsOrdered (consolidate (d1ConsStream arr S minB maxB)) := by
  rw [d1_stream_eq]
  unfold consolidate
  have hchain := chain_scanRunsAux S 1 (arr.length - 1) (arr.length - 1) 0 (Nat.zero_le _)
  have hpos : ∀ p ∈ scanRunsAux S 1 (arr.length - 1) (arr.length - 1) 0, 1 ≤ p.2 := by
    intro p hp
    obtain ⟨_, hlt, hS, hlen⟩ := mem_scanRunsAux S 1 (arr.length - 1) (arr.length - 1) 0 p hp
    rw [hlen]
    exact runLen_pos S 1 (arr.length - 1) p.1 hlt hS
  have hInv0 : Inv 0 (([] : List Segment), (none : Option SegState)) :=
    ⟨⟨List.Pairwise.nil, by simp⟩, trivial, rfl⟩
  obtain ⟨fr', hInv'⟩ := fold_runs minB maxB
    (scanRunsAux S 1 (arr.length - 1) (arr.length - 1) 0) ([], none) 0
    hInv0 hchain hpos (fun p _ => Nat.zero_le _)
  exact finalize_ok fr' _ hInv'

end HOR
